/-
  Verification of the IDL-to-Rust translation engine (src/main.rs).

  The development shallowly embeds the program's core functions:
  * `sha256` — an executable SHA-256 over byte lists (`Nat` values < 256),
    standing for `openssl::sha::Sha256` used by `build_sighash`;
  * `toSnakeCase` / `toUpperCamelCase` — the `heck` crate's case
    conversions (ASCII character classes, which agree with Rust's Unicode
    classes on the ASCII identifiers the program handles);
  * `build_sighash` — the 8-byte discriminator builder;
  * `ty_to_rust_type` — the type mapper, with the `HashSet<String>` of
    unresolved names embedded as a duplicate-free `List String` threaded
    explicitly (insert-if-absent, remove-all);
  * `processDoc` — the per-document pipeline of `main` (lines 18-125),
    with every write to the per-document output file recorded as an
    `OutLine` event, in emission order.
-/
import Mathlib

namespace ParseIdl

/-! ## SHA-256 (executable, over `Nat` bytes) -/

/-- 32-bit truncation. -/
def m32 (n : Nat) : Nat := n % 4294967296

/-- 32-bit addition. -/
def add32 (a b : Nat) : Nat := m32 (a + b)

/-- 32-bit right rotation by `n`. -/
def rotr32 (n x : Nat) : Nat :=
  m32 (Nat.lor (Nat.shiftRight x n) (Nat.shiftLeft x (32 - n)))

/-- 32-bit bitwise complement. -/
def not32 (x : Nat) : Nat := Nat.xor x 4294967295

/-- SHA-256 `Ch` function. -/
def ch32 (x y z : Nat) : Nat := Nat.xor (Nat.land x y) (Nat.land (not32 x) z)

/-- SHA-256 `Maj` function. -/
def maj32 (x y z : Nat) : Nat :=
  Nat.xor (Nat.land x y) (Nat.xor (Nat.land x z) (Nat.land y z))

/-- SHA-256 big sigma 0. -/
def bsig0 (x : Nat) : Nat := Nat.xor (rotr32 2 x) (Nat.xor (rotr32 13 x) (rotr32 22 x))

/-- SHA-256 big sigma 1. -/
def bsig1 (x : Nat) : Nat := Nat.xor (rotr32 6 x) (Nat.xor (rotr32 11 x) (rotr32 25 x))

/-- SHA-256 small sigma 0. -/
def ssig0 (x : Nat) : Nat :=
  Nat.xor (rotr32 7 x) (Nat.xor (rotr32 18 x) (Nat.shiftRight x 3))

/-- SHA-256 small sigma 1. -/
def ssig1 (x : Nat) : Nat :=
  Nat.xor (rotr32 17 x) (Nat.xor (rotr32 19 x) (Nat.shiftRight x 10))

/-- The 64 SHA-256 round constants of FIPS 180-4, written in decimal. -/
def sha256K : List Nat :=
  [1116352408, 1899447441, 3049323471, 3921009573, 961987163, 1508970993,
   2453635748, 2870763221, 3624381080, 310598401, 607225278, 1426881987,
   1925078388, 2162078206, 2614888103, 3248222580, 3835390401, 4022224774,
   264347078, 604807628, 770255983, 1249150122, 1555081692, 1996064986,
   2554220882, 2821834349, 2952996808, 3210313671, 3336571891, 3584528711,
   113926993, 338241895, 666307205, 773529912, 1294757372, 1396182291,
   1695183700, 1986661051, 2177026350, 2456956037, 2730485921, 2820302411,
   3259730800, 3345764771, 3516065817, 3600352804, 4094571909, 275423344,
   430227734, 506948616, 659060556, 883997877, 958139571, 1322822218,
   1537002063, 1747873779, 1955562222, 2024104815, 2227730452, 2361852424,
   2428436474, 2756734187, 3204031479, 3329325298]

/-- The SHA-256 initial hash value of FIPS 180-4, written in decimal. -/
def sha256H0 : List Nat :=
  [1779033703, 3144134277, 1013904242, 2773480762,
   1359893119, 2600822924, 528734635, 1541459225]

/-- Pad a message (list of bytes) per SHA-256: append `0x80`, zeros to 56 mod
64, then the bit length as 8 big-endian bytes. -/
def sha256Pad (msg : List Nat) : List Nat :=
  let len := msg.length
  let zeros := (64 - (len + 9) % 64) % 64
  let bitLen := len * 8
  msg ++ [0x80] ++ List.replicate zeros 0 ++
    [m32 (bitLen / 2^56) % 256, bitLen / 2^48 % 256, bitLen / 2^40 % 256,
     bitLen / 2^32 % 256, bitLen / 2^24 % 256, bitLen / 2^16 % 256,
     bitLen / 2^8 % 256, bitLen % 256]

/-- Group 4 bytes (big-endian) into one 32-bit word, over a whole list. -/
def bytesToWords : List Nat → List Nat
  | b0 :: b1 :: b2 :: b3 :: rest =>
      (b0 * 2^24 + b1 * 2^16 + b2 * 2^8 + b3) :: bytesToWords rest
  | _ => []

/-- Split a word list into 16-word blocks, given the number of blocks. -/
def toBlocks : Nat → List Nat → List (List Nat)
  | 0, _ => []
  | n + 1, ws => ws.take 16 :: toBlocks n (ws.drop 16)

/-- Extend a 16-word block by `n` further schedule words. -/
def extendW : Nat → List Nat → List Nat
  | 0, w => w
  | n + 1, w =>
      let t := w.length
      let nw := add32 (ssig1 (w.getD (t - 2) 0))
        (add32 (w.getD (t - 7) 0) (add32 (ssig0 (w.getD (t - 15) 0)) (w.getD (t - 16) 0)))
      extendW n (w ++ [nw])

/-- One SHA-256 compression round: state `(a,b,c,d,e,f,g,h)` with round
constant `k` and schedule word `w`. -/
def sha256Round (st : List Nat) (kw : Nat × Nat) : List Nat :=
  match st with
  | [a, b, c, d, e, f, g, h] =>
      let t1 := add32 h (add32 (bsig1 e) (add32 (ch32 e f g) (add32 kw.1 kw.2)))
      let t2 := add32 (bsig0 a) (maj32 a b c)
      [add32 t1 t2, a, b, c, add32 d t1, e, f, g]
  | other => other

/-- Compress one 16-word block into the running hash value. -/
def sha256Block (h : List Nat) (block : List Nat) : List Nat :=
  let w := extendW 48 block
  let st := (sha256K.zip w).foldl sha256Round h
  (h.zip st).map fun p => add32 p.1 p.2

/-- SHA-256 digest of a byte list, as 32 bytes. -/
def sha256 (msg : List Nat) : List Nat :=
  let padded := sha256Pad msg
  let blocks := toBlocks (padded.length / 64) (bytesToWords padded)
  let h := blocks.foldl sha256Block sha256H0
  h.flatMap fun w => [w / 2^24 % 256, w / 2^16 % 256, w / 2^8 % 256, w % 256]

/-- Bytes of an ASCII string (code points; agrees with UTF-8 on ASCII). -/
def strBytes (s : String) : List Nat := s.data.map Char.toNat

/-! ## The `heck` crate's case conversions

`heck::transform` splits the input on non-alphanumeric characters, then
splits each word further at lowercase-to-uppercase boundaries and before
the final uppercase letter of an acronym run followed by a lowercase
letter; each resulting chunk is passed to a per-convention word
transformer and the chunks are joined by a per-convention boundary.
Character classes are ASCII here, agreeing with Rust's Unicode classes on
the ASCII identifiers this program processes. -/

/-- Split a character list on a separator predicate, exactly as Rust's
`str::split` with a `char` pattern (empty segments are kept). -/
def splitOnPred (p : Char → Bool) : List Char → List (List Char)
  | [] => [[]]
  | c :: cs =>
    if p c then [] :: splitOnPred p cs
    else match splitOnPred p cs with
      | [] => [[c]]
      | w :: ws => (c :: w) :: ws

/-- The scanning mode of `heck::transform`'s inner loop. -/
inductive WordMode | boundary | lowercase | uppercase
deriving DecidableEq

/-- The inner loop of `heck::transform` over one word: `seg` is the chunk
accumulated since the last boundary (the source's `word[init..i]`). -/
def heckChunksGo (seg : List Char) (mode : WordMode) : List Char → List (List Char)
  | [] => []
  | c :: rest =>
    match rest with
    | [] => [seg ++ [c]]
    | next :: _ =>
      let nextMode := if c.isLower then WordMode.lowercase
        else if c.isUpper then WordMode.uppercase else mode
      if nextMode = WordMode.lowercase ∧ next.isUpper then
        (seg ++ [c]) :: heckChunksGo [] WordMode.boundary rest
      else if mode = WordMode.uppercase ∧ c.isUpper ∧ next.isLower then
        seg :: heckChunksGo [c] WordMode.boundary rest
      else
        heckChunksGo (seg ++ [c]) nextMode rest

/-- All word chunks of a string, in order, as produced by `heck::transform`. -/
def heckChunks (s : String) : List (List Char) :=
  (splitOnPred (fun c => !c.isAlphanum) s.data).flatMap
    (heckChunksGo [] WordMode.boundary)

/-- `heck::ToSnakeCase`: lowercase every chunk and join with `_`. -/
def toSnakeCase (s : String) : String :=
  ⟨List.intercalate ['_'] ((heckChunks s).map (List.map Char.toLower))⟩

/-- Capitalize one chunk: uppercase the first character, lowercase the rest. -/
def capitalizeChunk : List Char → List Char
  | [] => []
  | c :: cs => c.toUpper :: cs.map Char.toLower

/-- `heck::ToUpperCamelCase`: capitalize every chunk and concatenate. -/
def toUpperCamelCase (s : String) : String :=
  ⟨((heckChunks s).map capitalizeChunk).flatten⟩

/-! ## The discriminator builder (`build_sighash`, main.rs lines 149-161) -/

/-- `build_sighash`: the first 8 bytes of the SHA-256 digest of
`"global:" ++ to_snake_case(name)`. -/
def build_sighash (fname : String) : List Nat :=
  (sha256 (strBytes ("global:" ++ toSnakeCase fname))).take 8

/-! ## The IDL model (`anchor_idl` types, as consumed by main.rs) -/

/-- `anchor_idl::IdlType`: IDL type expressions. -/
inductive IdlType
  | Bool | U8 | I8 | U16 | I16 | U32 | I32 | F32 | U64 | I64 | F64
  | U128 | I128 | Bytes | Str | PublicKey
  | Option (inner : IdlType)
  | Vec (inner : IdlType)
  | Array (inner : IdlType) (size : Nat)
  | Defined (name : String)
deriving DecidableEq, Repr

/-- `HashSet::insert` on the duplicate-free list embedding of the set. -/
def setInsert (st : List String) (n : String) : List String :=
  if n ∈ st then st else st ++ [n]

/-- `HashSet::remove` on the list embedding of the set. -/
def setRemove (st : List String) (n : String) : List String :=
  st.filter (· ≠ n)

/-- `ty_to_rust_type` (main.rs lines 233-259): map one IDL type expression
to the Rust type string, inserting every `Defined` name encountered into
the unresolved set; the mutated set is returned alongside the string. -/
def ty_to_rust_type (ty : IdlType) (unresolved : List String) : String × List String :=
  match ty with
  | .Bool => ("bool", unresolved)
  | .U8 => ("u8", unresolved)
  | .I8 => ("i8", unresolved)
  | .U16 => ("u16", unresolved)
  | .I16 => ("i16", unresolved)
  | .U32 => ("u32", unresolved)
  | .I32 => ("i32", unresolved)
  | .F32 => ("f32", unresolved)
  | .U64 => ("u64", unresolved)
  | .I64 => ("i64", unresolved)
  | .F64 => ("f64", unresolved)
  | .U128 => ("u128", unresolved)
  | .I128 => ("i128", unresolved)
  | .Bytes => ("Vec<u8>", unresolved)
  | .Str => ("String", unresolved)
  | .PublicKey => ("Pubkey", unresolved)
  | .Option inner =>
      let r := ty_to_rust_type inner unresolved
      ("Option<" ++ r.1 ++ ">", r.2)
  | .Vec inner =>
      let r := ty_to_rust_type inner unresolved
      ("Vec<" ++ r.1 ++ ">", r.2)
  | .Array inner size =>
      let r := ty_to_rust_type inner unresolved
      ("[" ++ r.1 ++ "; " ++ toString size ++ "]", r.2)
  | .Defined name => (name, setInsert unresolved name)

/-- All `Defined` names occurring in a type expression, in traversal order. -/
def definedNames : IdlType → List String
  | .Option inner => definedNames inner
  | .Vec inner => definedNames inner
  | .Array inner _ => definedNames inner
  | .Defined name => [name]
  | _ => []

/-- An instruction argument or a struct field: a name and a type. -/
structure IdlField where
  name : String
  ty : IdlType
deriving DecidableEq, Repr

/-- `anchor_idl::IdlInstruction` (the parts main.rs reads). -/
structure IdlInstruction where
  name : String
  args : List IdlField
deriving DecidableEq, Repr

/-- `anchor_idl::IdlTypeDefinitionTy`: struct or unit-variant enum body. -/
inductive IdlTypeDefinitionTy
  | Struct (fields : List IdlField)
  | Enum (variants : List String)
deriving DecidableEq, Repr

/-- `anchor_idl::IdlTypeDefinition`: a named type definition. -/
structure IdlTypeDefinition where
  name : String
  ty : IdlTypeDefinitionTy
deriving DecidableEq, Repr

/-- A JSON value in the metadata map (the program only cares whether the
value is a string). -/
inductive MetaVal
  | str (s : String)
  | other
deriving DecidableEq, Repr

/-- The deserialized IDL document (the parts main.rs reads). -/
structure Idl where
  metadata : Option (List (String × MetaVal))
  instructions : List IdlInstruction
  accounts : List IdlTypeDefinition
  types : List IdlTypeDefinition
deriving DecidableEq, Repr

/-- `serde_json::Value::get` on the metadata object: first binding wins. -/
def metaGet (m : List (String × MetaVal)) (k : String) : Option MetaVal :=
  match m.find? (fun p => p.1 = k) with
  | some p => some p.2
  | none => none

/-! ## The per-document pipeline of `main` (lines 18-125)

Each write the program makes to the per-document output file is recorded
as one `OutLine` event; the trace is in emission order. The pipeline also
returns the final unresolved set and the error that aborts the run, if
any. -/

/-- One write to the generated output file. -/
inductive OutLine
  | imports
  | programId (id : String)
  | beginDisc
  | discEntry (bytes : List Nat) (name : String)
  | endDisc
  | beginDecl (name : String) (kind : String)
  | fieldLine (name : String) (ty : String)
  | variantLine (name : String)
  | endDecl
deriving DecidableEq, Repr

/-- The struct-field loop: map each field's type (threading the unresolved
set) and emit one `fieldLine` per field, in order. -/
def fieldLines (fields : List IdlField) (st : List String) :
    List OutLine × List String :=
  match fields with
  | [] => ([], st)
  | f :: rest =>
      let r := ty_to_rust_type f.ty st
      let r2 := fieldLines rest r.2
      (.fieldLine (toSnakeCase f.name) r.1 :: r2.1, r2.2)

/-- One step of the instruction-argument phase (main.rs lines 50-67): an
argument struct is emitted only when the argument list is non-empty. -/
def ixStep (st : List String) (ix : IdlInstruction) : List OutLine × List String :=
  if ix.args.isEmpty then ([], st)
  else
    let r := fieldLines ix.args st
    (.beginDecl (toUpperCamelCase ix.name) "struct" :: r.1 ++ [.endDecl], r.2)

/-- The instruction-argument phase over all instructions. -/
def ixPhase (ixs : List IdlInstruction) (st : List String) :
    List OutLine × List String :=
  match ixs with
  | [] => ([], st)
  | ix :: rest =>
      let r := ixStep st ix
      let r' := ixPhase rest r.2
      (r.1 ++ r'.1, r'.2)

/-- One step of a resolution scan (main.rs lines 70-94 and 97-121): emit
the definition's declaration when its name is in the unresolved set —
declared under the definition's name as written — then remove the name;
otherwise skip it entirely. -/
def scanStep (st : List String) (td : IdlTypeDefinition) :
    List OutLine × List String :=
  if td.name ∈ st then
    match td.ty with
    | .Struct fields =>
        let r := fieldLines fields st
        (.beginDecl td.name "struct" :: r.1 ++ [.endDecl],
         setRemove r.2 td.name)
    | .Enum variants =>
        (.beginDecl td.name "enum" :: variants.map OutLine.variantLine ++ [.endDecl],
         setRemove st td.name)
  else ([], st)

/-- A resolution scan over one definition collection, in document order. -/
def scanPhase (tds : List IdlTypeDefinition) (st : List String) :
    List OutLine × List String :=
  match tds with
  | [] => ([], st)
  | td :: rest =>
      let r := scanStep st td
      let r' := scanPhase rest r.2
      (r.1 ++ r'.1, r'.2)

/-- The discriminator-table constructor body (main.rs lines 40-46): one
insert per instruction, key `build_sighash(name)`, value the snake-case
form of the name. -/
def discPhase (ixs : List IdlInstruction) : List OutLine :=
  ixs.map fun ix => .discEntry (build_sighash ix.name) (toSnakeCase ix.name)

/-- Extract the program address from the metadata exactly as main.rs lines
25-33 do, with the three abort messages. -/
def getAddress (metadata : Option (List (String × MetaVal))) :
    Except String String :=
  match metadata with
  | none => .error "metadata cannot be None!"
  | some m =>
      match metaGet m "address" with
      | none => .error "metadata should contain 'address'"
      | some v =>
          match v with
          | .str id => .ok id
          | .other => .error "address in metadata should be string format"

/-- The per-document pipeline (main.rs lines 18-125): the output file is
created and the import preamble written before the metadata checks; on a
metadata failure the run aborts with only the preamble written. Returns
the output trace, the final unresolved set, and the abort error if any. -/
def processDoc (idl : Idl) : List OutLine × List String × Option String :=
  let out0 : List OutLine := [.imports]
  match getAddress idl.metadata with
  | .error e => (out0, [], some e)
  | .ok id =>
      let disc := OutLine.beginDisc :: discPhase idl.instructions ++ [.endDisc]
      let rIx := ixPhase idl.instructions []
      let rAcc := scanPhase idl.accounts rIx.2
      let rTy := scanPhase idl.types rAcc.2
      (out0 ++ [.programId id] ++ disc ++ rIx.1 ++ rAcc.1 ++ rTy.1, rTy.2, none)

/-- The whole run over the discovered documents: the traces of the
documents processed, stopping at the first abort (main.rs `return Err`). -/
def processRun (docs : List Idl) : List (List OutLine) × Option String :=
  match docs with
  | [] => ([], none)
  | d :: rest =>
      let r := processDoc d
      match r.2.2 with
      | some e => ([r.1], some e)
      | none =>
          let r' := processRun rest
          (r.1 :: r'.1, r'.2)

/-! ## Auxiliary definitions used only in theorem statements -/

/-- The 16 primitive IDL type kinds, in the source's match order. -/
def primitiveKinds : List IdlType :=
  [.Bool, .U8, .I8, .U16, .I16, .U32, .I32, .F32, .U64, .I64, .F64,
   .U128, .I128, .Bytes, .Str, .PublicKey]

/-- The type string a primitive kind maps to (primitives never touch the
unresolved set, so the empty set is passed). -/
def mapPrim (t : IdlType) : String := (ty_to_rust_type t []).1

/-- Modelled from the spec: the (width, signedness) profile of the
fixed-width integer IDL kinds (`true` = signed); `none` for non-integer
kinds. -/
def specIdlIntProfile : IdlType → Option (Nat × Bool)
  | .U8 => some (8, false)
  | .I8 => some (8, true)
  | .U16 => some (16, false)
  | .I16 => some (16, true)
  | .U32 => some (32, false)
  | .I32 => some (32, true)
  | .U64 => some (64, false)
  | .I64 => some (64, true)
  | .U128 => some (128, false)
  | .I128 => some (128, true)
  | _ => none

/-- Modelled from the spec: the (width, signedness) profile of the Rust
fixed-width integer target types; `none` for every other target type. -/
def specRustIntProfile : String → Option (Nat × Bool)
  | "u8" => some (8, false)
  | "i8" => some (8, true)
  | "u16" => some (16, false)
  | "i16" => some (16, true)
  | "u32" => some (32, false)
  | "i32" => some (32, true)
  | "u64" => some (64, false)
  | "i64" => some (64, true)
  | "u128" => some (128, false)
  | "i128" => some (128, true)
  | _ => none

/-- The unresolved set in force when the `i`-th field of `args` is mapped:
the result of threading the set through the earlier fields. -/
def argState : List IdlField → List String → Nat → List String
  | [], st, _ => st
  | _ :: _, st, 0 => st
  | f :: rest, st, i + 1 => argState rest (ty_to_rust_type f.ty st).2 i

/-- The struct fields of a type definition (an enum has none). -/
def fieldsOf (td : IdlTypeDefinition) : List IdlField :=
  match td.ty with
  | .Struct fields => fields
  | .Enum _ => []

/-- The keyword the emitter uses for a definition body. -/
def kindStr (ty : IdlTypeDefinitionTy) : String :=
  match ty with
  | .Struct _ => "struct"
  | .Enum _ => "enum"

/-! ## Sanity checks of the SHA-256 embedding (FIPS 180-4 test vectors) -/

/-- SHA-256 of the empty message is the standard digest `e3b0c442…`. -/
theorem sha256_empty_vector :
    sha256 [] =
      [227, 176, 196, 66, 152, 252, 28, 20, 154, 251, 244, 200, 153, 111,
       185, 36, 39, 174, 65, 228, 100, 155, 147, 76, 164, 149, 153, 27,
       120, 82, 184, 85] := by decide

/-- SHA-256 of `"abc"` is the standard digest `ba7816bf…`. -/
theorem sha256_abc_vector :
    sha256 (strBytes "abc") =
      [186, 120, 22, 191, 143, 1, 207, 234, 65, 65, 64, 222, 93, 174, 34,
       35, 176, 3, 97, 163, 150, 23, 122, 156, 180, 16, 255, 97, 242, 0,
       21, 173] := by decide

/-! ## Membership lemmas for the unresolved set -/

lemma self_mem_setInsert (st : List String) (n : String) : n ∈ setInsert st n := by
  unfold setInsert
  split
  · assumption
  · simp

lemma mem_setInsert (st : List String) (m n : String) :
    n ∈ setInsert st m ↔ n ∈ st ∨ n = m := by
  unfold setInsert
  split
  · rename_i hm
    constructor
    · exact Or.inl
    · rintro (h | rfl)
      · exact h
      · exact hm
  · simp

lemma mem_setRemove (st : List String) (m n : String) :
    n ∈ setRemove st m ↔ n ∈ st ∧ n ≠ m := by
  simp [setRemove]

lemma setRemove_of_not_mem (st : List String) (m : String) (h : m ∉ st) :
    setRemove st m = st := by
  unfold setRemove
  apply List.filter_eq_self.mpr
  intro a ha
  simp only [decide_eq_true_eq]
  rintro rfl
  exact h ha

lemma mem_ty_to_rust_type (t : IdlType) (st : List String) (n : String) :
    n ∈ (ty_to_rust_type t st).2 ↔ n ∈ st ∨ n ∈ definedNames t := by
  induction t generalizing st with
  | Option inner ih => simpa [ty_to_rust_type, definedNames] using ih st
  | Vec inner ih => simpa [ty_to_rust_type, definedNames] using ih st
  | Array inner size ih => simpa [ty_to_rust_type, definedNames] using ih st
  | Defined name => simp [ty_to_rust_type, definedNames, mem_setInsert]
  | _ => simp [ty_to_rust_type, definedNames]

lemma mem_fieldLines (fs : List IdlField) (st : List String) (n : String) :
    n ∈ (fieldLines fs st).2 ↔ n ∈ st ∨ ∃ f ∈ fs, n ∈ definedNames f.ty := by
  induction fs generalizing st with
  | nil => simp [fieldLines]
  | cons f rest ih =>
      simp only [fieldLines, ih, mem_ty_to_rust_type, List.mem_cons]
      constructor
      · rintro ((h | h) | ⟨g, hg, hn⟩)
        · exact Or.inl h
        · exact Or.inr ⟨f, Or.inl rfl, h⟩
        · exact Or.inr ⟨g, Or.inr hg, hn⟩
      · rintro (h | ⟨g, (rfl | hg), hn⟩)
        · exact Or.inl (Or.inl h)
        · exact Or.inl (Or.inr hn)
        · exact Or.inr ⟨g, hg, hn⟩

lemma mem_ixStep (st : List String) (ix : IdlInstruction) (n : String) :
    n ∈ (ixStep st ix).2 ↔ n ∈ st ∨ ∃ f ∈ ix.args, n ∈ definedNames f.ty := by
  unfold ixStep
  split
  · rename_i h
    rw [List.isEmpty_iff] at h
    simp [h]
  · simpa using mem_fieldLines ix.args st n

lemma mem_ixPhase (ixs : List IdlInstruction) (st : List String) (n : String) :
    n ∈ (ixPhase ixs st).2 ↔
      n ∈ st ∨ ∃ ix ∈ ixs, ∃ f ∈ ix.args, n ∈ definedNames f.ty := by
  induction ixs generalizing st with
  | nil => simp [ixPhase]
  | cons ix rest ih =>
      simp only [ixPhase, ih, mem_ixStep, List.mem_cons]
      constructor
      · rintro ((h | h) | ⟨g, hg, hn⟩)
        · exact Or.inl h
        · exact Or.inr ⟨ix, Or.inl rfl, h⟩
        · exact Or.inr ⟨g, Or.inr hg, hn⟩
      · rintro (h | ⟨g, (rfl | hg), hn⟩)
        · exact Or.inl (Or.inl h)
        · exact Or.inl (Or.inr hn)
        · exact Or.inr ⟨g, hg, hn⟩

/-! ## Reference-free scanning lemmas -/

lemma ty_to_rust_type_snd_of_refFree (t : IdlType) (st : List String)
    (h : definedNames t = []) : (ty_to_rust_type t st).2 = st := by
  induction t generalizing st with
  | Option inner ih => exact ih st (by simpa [definedNames] using h)
  | Vec inner ih => exact ih st (by simpa [definedNames] using h)
  | Array inner size ih => exact ih st (by simpa [definedNames] using h)
  | Defined name => simp [definedNames] at h
  | _ => rfl

lemma fieldLines_snd_of_refFree (fs : List IdlField) (st : List String)
    (h : ∀ f ∈ fs, definedNames f.ty = []) : (fieldLines fs st).2 = st := by
  induction fs generalizing st with
  | nil => rfl
  | cons f rest ih =>
      simp only [fieldLines]
      rw [ty_to_rust_type_snd_of_refFree f.ty st (h f (by simp))]
      exact ih st fun g hg => h g (by simp [hg])

lemma scanStep_snd_of_refFree (st : List String) (td : IdlTypeDefinition)
    (h : ∀ f ∈ fieldsOf td, definedNames f.ty = []) :
    (scanStep st td).2 = setRemove st td.name := by
  unfold scanStep
  split
  · rename_i hmem
    match htd : td.ty with
    | .Struct fields =>
        simp only
        rw [fieldLines_snd_of_refFree fields st
          (by simpa [fieldsOf, htd] using h)]
    | .Enum variants => simp only
  · rename_i hmem
    exact (setRemove_of_not_mem st td.name hmem).symm

lemma scanPhase_snd_of_refFree (tds : List IdlTypeDefinition) (st : List String)
    (h : ∀ td ∈ tds, ∀ f ∈ fieldsOf td, definedNames f.ty = []) (n : String) :
    n ∈ (scanPhase tds st).2 ↔
      n ∈ st ∧ n ∉ tds.map IdlTypeDefinition.name := by
  induction tds generalizing st with
  | nil => simp [scanPhase]
  | cons td rest ih =>
      simp only [scanPhase]
      rw [ih (scanStep st td).2 fun g hg => h g (by simp [hg]),
        scanStep_snd_of_refFree st td (h td (by simp)), mem_setRemove]
      simp only [List.map_cons, List.mem_cons]
      constructor
      · rintro ⟨⟨h1, h2⟩, h3⟩
        exact ⟨h1, by rintro (h4 | h4) <;> [exact h2 h4; exact h3 h4]⟩
      · rintro ⟨h1, h2⟩
        exact ⟨⟨h1, fun h4 => h2 (Or.inl h4)⟩, fun h4 => h2 (Or.inr h4)⟩

lemma scanPhase_nil_set (tds : List IdlTypeDefinition) :
    scanPhase tds [] = ([], []) := by
  induction tds with
  | nil => rfl
  | cons td rest ih => simp [scanPhase, scanStep, ih]

/-! ## Claim theorems -/

/-- C1: for every instruction name, the discriminator is the first 8 bytes,
in digest order, of SHA-256 of `"global:"` concatenated with the
snake-case form of the name; for `"initialize_pool"` it is the first 8
bytes of SHA-256 of `"global:initialize_pool"` (concretely,
`5f b4 0a ac 54 ae e8 28`). -/
theorem c1_discriminator_scheme :
    (∀ s : String, build_sighash s =
      (sha256 (strBytes ("global:" ++ toSnakeCase s))).take 8) ∧
    build_sighash "initialize_pool" =
      (sha256 (strBytes "global:initialize_pool")).take 8 ∧
    build_sighash "initialize_pool" = [95, 180, 10, 172, 84, 174, 232, 40] := by
  refine ⟨fun s => rfl, by decide, by decide⟩

/-- C10: the discriminator factors through snake-case normalization — names
with equal snake-case forms get byte-identical discriminators. -/
theorem c10_sighash_factors_through_snake (a b : String)
    (h : toSnakeCase a = toSnakeCase b) : build_sighash a = build_sighash b := by
  unfold build_sighash
  rw [h]

/-- C10 witness: `"initializePool"` and `"initialize_pool"` differ only in
word separation and receive the same discriminator. -/
theorem c10_sighash_factors_through_snake_witness :
    toSnakeCase "initializePool" = toSnakeCase "initialize_pool" ∧
    build_sighash "initializePool" = build_sighash "initialize_pool" :=
  ⟨by decide,
   c10_sighash_factors_through_snake "initializePool" "initialize_pool" (by decide)⟩

/-- C5: on the 16 primitive IDL kinds the type mapper realizes exactly the
fixed target vocabulary below (totality), the 16 images are pairwise
distinct (injectivity), and every fixed-width integer kind maps to the
target integer type of the same width and signedness. -/
theorem c5_primitive_mapping_exact :
    primitiveKinds.map mapPrim =
      ["bool", "u8", "i8", "u16", "i16", "u32", "i32", "f32", "u64", "i64",
       "f64", "u128", "i128", "Vec<u8>", "String", "Pubkey"] ∧
    (primitiveKinds.map mapPrim).Nodup ∧
    (primitiveKinds.all fun t =>
      specRustIntProfile (mapPrim t) == specIdlIntProfile t) = true := by
  refine ⟨by decide, by decide, by decide⟩

/-- C6: mapping `Option`, `Vec` and `Array` wraps the mapping of the inner
type in the corresponding Rust type former (with the literal array length
kept exactly), and mapping `Defined name` yields the literal name and
inserts it into the unresolved set. -/
theorem c6_composite_mapping (inner : IdlType) (st : List String) (n : Nat)
    (name : String) :
    ty_to_rust_type (.Option inner) st =
      ("Option<" ++ (ty_to_rust_type inner st).1 ++ ">",
       (ty_to_rust_type inner st).2) ∧
    ty_to_rust_type (.Vec inner) st =
      ("Vec<" ++ (ty_to_rust_type inner st).1 ++ ">",
       (ty_to_rust_type inner st).2) ∧
    ty_to_rust_type (.Array inner n) st =
      ("[" ++ (ty_to_rust_type inner st).1 ++ "; " ++ toString n ++ "]",
       (ty_to_rust_type inner st).2) ∧
    ty_to_rust_type (.Defined name) st = (name, setInsert st name) ∧
    name ∈ (ty_to_rust_type (.Defined name) st).2 :=
  ⟨rfl, rfl, rfl, rfl, self_mem_setInsert st name⟩

lemma fieldLines_fst_length (fs : List IdlField) (st : List String) :
    (fieldLines fs st).1.length = fs.length := by
  induction fs generalizing st with
  | nil => rfl
  | cons f rest ih => simp [fieldLines, ih]

lemma fieldLines_fst_getD (fs : List IdlField) (st : List String) (i : Nat)
    (h : i < fs.length) :
    (fieldLines fs st).1.getD i .endDecl =
      .fieldLine (toSnakeCase (fs.getD i ⟨"", .Bool⟩).name)
        (ty_to_rust_type (fs.getD i ⟨"", .Bool⟩).ty (argState fs st i)).1 := by
  induction fs generalizing st i with
  | nil => simp at h
  | cons f rest ih =>
      match i with
      | 0 => rfl
      | i + 1 =>
          simp only [fieldLines, List.getD_cons_succ, argState]
          exact ih (ty_to_rust_type f.ty st).2 i (by simpa using h)

/-- C7: an argument struct is emitted exactly when the instruction's
argument list is non-empty; it is named with the upper-camel-case form of
the instruction name, and holds one field per argument, in the original
order, each named with the snake-case form of the argument name and typed
with the mapped argument type (mapped under the set threaded through the
earlier arguments). -/
theorem c7_argument_structs (st : List String) (ix : IdlInstruction) :
    ((ixStep st ix).1 = [] ↔ ix.args = []) ∧
    (ix.args ≠ [] → (ixStep st ix).1 =
      .beginDecl (toUpperCamelCase ix.name) "struct" ::
        (fieldLines ix.args st).1 ++ [.endDecl]) ∧
    (fieldLines ix.args st).1.length = ix.args.length ∧
    (∀ i, i < ix.args.length →
      (fieldLines ix.args st).1.getD i .endDecl =
        .fieldLine (toSnakeCase (ix.args.getD i ⟨"", .Bool⟩).name)
          (ty_to_rust_type (ix.args.getD i ⟨"", .Bool⟩).ty
            (argState ix.args st i)).1) := by
  refine ⟨?_, ?_, fieldLines_fst_length ix.args st,
    fun i h => fieldLines_fst_getD ix.args st i h⟩
  · unfold ixStep
    split
    · rename_i h
      simpa using h
    · rename_i h
      simp only [List.isEmpty_eq_false] at h ⊢
      simpa using h
  · intro h
    unfold ixStep
    rw [if_neg (by simpa using h)]

/-- C7 witness: a concrete two-argument instruction, emitted as claimed. -/
theorem c7_argument_structs_witness :
    (ixStep [] ⟨"initPool", [⟨"myArg", .U8⟩, ⟨"accRef", .Defined "Cfg"⟩]⟩).1 =
      .beginDecl (toUpperCamelCase "initPool") "struct" ::
        (fieldLines [⟨"myArg", .U8⟩, ⟨"accRef", .Defined "Cfg"⟩] []).1 ++
          [.endDecl] :=
  (c7_argument_structs []
    ⟨"initPool", [⟨"myArg", .U8⟩, ⟨"accRef", .Defined "Cfg"⟩]⟩).2.1 (by decide)

/-- C3: if every type name referenced by an instruction argument has a
definition of exactly that name in the account collection, and no account
definition's fields contain further `Defined` references, then the
unresolved set is empty when the document's processing completes (so the
warning loop at main.rs lines 123-125 emits nothing). -/
theorem c3_resolution_completeness (d : Idl)
    (h1 : ∀ ix ∈ d.instructions, ∀ f ∈ ix.args, ∀ n ∈ definedNames f.ty,
      n ∈ d.accounts.map IdlTypeDefinition.name)
    (h2 : ∀ td ∈ d.accounts, ∀ f ∈ fieldsOf td, definedNames f.ty = []) :
    (processDoc d).2.1 = [] := by
  unfold processDoc
  cases hga : getAddress d.metadata with
  | error e => rfl
  | ok id =>
      simp only
      have hacc : (scanPhase d.accounts (ixPhase d.instructions []).2).2 = [] := by
        rw [List.eq_nil_iff_forall_not_mem]
        intro n hn
        rw [scanPhase_snd_of_refFree d.accounts _ h2 n] at hn
        obtain ⟨hn1, hn2⟩ := hn
        rw [mem_ixPhase] at hn1
        rcases hn1 with h | ⟨ix, hix, f, hf, hdn⟩
        · simp at h
        · exact hn2 (h1 ix hix f hf n hdn)
      rw [hacc, scanPhase_nil_set]

/-- C3 witness: a one-instruction document whose referenced type is an
account definition with reference-free fields resolves completely. -/
theorem c3_resolution_completeness_witness :
    (processDoc ⟨some [("address", .str "Addr")],
      [⟨"init", [⟨"cfg", .Defined "Config"⟩]⟩],
      [⟨"Config", .Struct [⟨"count", .U64⟩]⟩], []⟩).2.1 = [] :=
  c3_resolution_completeness
    ⟨some [("address", .str "Addr")],
      [⟨"init", [⟨"cfg", .Defined "Config"⟩]⟩],
      [⟨"Config", .Struct [⟨"count", .U64⟩]⟩], []⟩
    (by decide) (by decide)

/-- C4: on a document that passes the metadata checks, the output trace
places the account-collection scan strictly before the auxiliary-type
scan (both in document order, as folds of `scanStep`); and one scan step
emits a declaration exactly when the definition's name is in the
unresolved set at that moment — in which case the name is no longer in
the set immediately after the step — while a definition whose name is
absent is skipped with no output and no set change. -/
theorem c4_scan_order_and_emission (d : Idl) (id : String) (st : List String)
    (td : IdlTypeDefinition) :
    (getAddress d.metadata = .ok id →
      (processDoc d).1 =
        [.imports] ++ [.programId id] ++
          (OutLine.beginDisc :: discPhase d.instructions ++ [.endDisc]) ++
          (ixPhase d.instructions []).1 ++
          (scanPhase d.accounts (ixPhase d.instructions []).2).1 ++
          (scanPhase d.types
            (scanPhase d.accounts (ixPhase d.instructions []).2).2).1) ∧
    (td.name ∉ st → scanStep st td = ([], st)) ∧
    (td.name ∈ st →
      (scanStep st td).1 ≠ [] ∧ td.name ∉ (scanStep st td).2) := by
  refine ⟨?_, ?_, ?_⟩
  · intro h
    unfold processDoc
    rw [h]
  · intro h
    unfold scanStep
    rw [if_neg h]
  · intro h
    unfold scanStep
    rw [if_pos h]
    cases htd : td.ty with
    | Struct fields =>
        refine ⟨by simp, ?_⟩
        rw [mem_setRemove]
        simp
    | Enum variants =>
        refine ⟨by simp, ?_⟩
        rw [mem_setRemove]
        simp

/-- C4 witness: concrete scan steps — a skipped definition whose name is
not unresolved, an emitted one whose name is, and a full good-metadata
document trace in account-then-auxiliary order. -/
theorem c4_scan_order_and_emission_witness :
    scanStep ["A"] ⟨"B", .Enum []⟩ = ([], ["A"]) ∧
    ((scanStep ["A"] ⟨"A", .Enum ["X"]⟩).1 ≠ [] ∧
      "A" ∉ (scanStep ["A"] ⟨"A", .Enum ["X"]⟩).2) ∧
    (processDoc ⟨some [("address", .str "Addr")], [], [], []⟩).1 =
      [.imports] ++ [.programId "Addr"] ++
        (OutLine.beginDisc :: discPhase [] ++ [.endDisc]) ++
        (ixPhase [] []).1 ++ (scanPhase [] (ixPhase [] []).2).1 ++
        (scanPhase [] (scanPhase [] (ixPhase [] []).2).2).1 :=
  ⟨(c4_scan_order_and_emission ⟨none, [], [], []⟩ "" ["A"]
      ⟨"B", .Enum []⟩).2.1 (by decide),
   (c4_scan_order_and_emission ⟨none, [], [], []⟩ "" ["A"]
      ⟨"A", .Enum ["X"]⟩).2.2 (by decide),
   (c4_scan_order_and_emission ⟨some [("address", .str "Addr")], [], [], []⟩
      "Addr" [] ⟨"", .Enum []⟩).1 rfl⟩

/-- C2 counterexample: for the document with absent metadata the run does
abort, but the output file has already been created and written (the trace
is non-empty: the import preamble is in it), so a partial output artifact
for the document exists, contradicting the claim. -/
theorem c2_counterexample_artifact_exists :
    (processDoc ⟨none, [], [], []⟩).2.2.isSome = true ∧
    (processDoc ⟨none, [], [], []⟩).1 ≠ [] := by decide

/-- C2 amended: if the metadata is absent, lacks an `address` key, or its
`address` value is not a string, processing the document aborts the whole
run with an error — no later document is processed — but only after the
document's output file has been created and the fixed import preamble
written to it, so the file exists holding exactly that preamble. -/
theorem c2_metadata_abort_after_file_creation (d : Idl)
    (h : d.metadata = none ∨
      ∃ m, d.metadata = some m ∧
        (metaGet m "address" = none ∨ metaGet m "address" = some .other)) :
    (processDoc d).2.2.isSome = true ∧
    (processDoc d).1 = [.imports] ∧
    ∀ rest, processRun (d :: rest) = ([(processDoc d).1], (processDoc d).2.2) := by
  obtain ⟨e, he⟩ : ∃ e, getAddress d.metadata = Except.error e := by
    rcases h with h1 | ⟨m, hm, h2 | h2⟩
    · exact ⟨"metadata cannot be None!", by simp [getAddress, h1]⟩
    · exact ⟨"metadata should contain 'address'", by simp [getAddress, hm, h2]⟩
    · exact ⟨"address in metadata should be string format",
        by simp [getAddress, hm, h2]⟩
  have hpd : processDoc d = ([OutLine.imports], [], some e) := by
    unfold processDoc
    rw [he]
  refine ⟨by simp [hpd], by simp [hpd], fun rest => ?_⟩
  simp [processRun, hpd]

/-- C2 witness: the document with absent metadata leaves exactly the fixed
preamble in its output file. -/
theorem c2_metadata_abort_witness :
    (processDoc ⟨none, [], [], []⟩).1 = [.imports] :=
  (c2_metadata_abort_after_file_creation ⟨none, [], [], []⟩ (Or.inl rfl)).2.1

set_option maxHeartbeats 1600000 in
/-- C8 counterexample: for the instruction named `"initializePool"` the
emitted table is exactly one entry whose value is `"initialize_pool"` —
the snake-case form — and not the instruction name string
`"initializePool"`, contradicting the claim. -/
theorem c8_counterexample_value_not_name :
    build_sighash "initializePool" = [95, 180, 10, 172, 84, 174, 232, 40] ∧
    toSnakeCase "initializePool" = "initialize_pool" ∧
    discPhase [⟨"initializePool", []⟩] =
      [.discEntry [95, 180, 10, 172, 84, 174, 232, 40] "initialize_pool"] ∧
    discPhase [⟨"initializePool", []⟩] ≠
      [.discEntry [95, 180, 10, 172, 84, 174, 232, 40] "initializePool"] ∧
    "initialize_pool" ≠ "initializePool" := by
  refine ⟨by decide, by decide, by decide, by decide, by decide⟩

lemma discPhase_getD (ixs : List IdlInstruction) (i : Nat)
    (h : i < ixs.length) :
    (discPhase ixs).getD i .endDisc =
      .discEntry (build_sighash (ixs.getD i ⟨"", []⟩).name)
        (toSnakeCase (ixs.getD i ⟨"", []⟩).name) := by
  induction ixs generalizing i with
  | nil => simp at h
  | cons ix rest ih =>
      match i with
      | 0 => rfl
      | i + 1 =>
          simp only [discPhase, List.map_cons, List.getD_cons_succ]
          exact ih i (by simpa using h)

/-- C8 amended: the emitted table has exactly one entry per instruction,
in the document's instruction order; entry `i`'s key is the 8-byte
discriminator of instruction `i`'s name and its value is the snake-case
form of that name (which coincides with the name only when the name is
already snake-cased). -/
theorem c8_amended_discriminator_table (ixs : List IdlInstruction) :
    (discPhase ixs).length = ixs.length ∧
    ∀ i, i < ixs.length →
      (discPhase ixs).getD i .endDisc =
        .discEntry (build_sighash (ixs.getD i ⟨"", []⟩).name)
          (toSnakeCase (ixs.getD i ⟨"", []⟩).name) :=
  ⟨by simp [discPhase], fun i h => discPhase_getD ixs i h⟩

/-- C8 witness: the one-instruction table, entry by entry. -/
theorem c8_amended_discriminator_table_witness :
    (discPhase [⟨"doThing", []⟩]).getD 0 .endDisc =
      .discEntry
        (build_sighash (([⟨"doThing", []⟩] : List IdlInstruction).getD 0 ⟨"", []⟩).name)
        (toSnakeCase (([⟨"doThing", []⟩] : List IdlInstruction).getD 0 ⟨"", []⟩).name) :=
  (c8_amended_discriminator_table [⟨"doThing", []⟩]).2 0 (by decide)

set_option maxHeartbeats 1600000 in
/-- C9 counterexample: in a document whose instruction references the
account definition named `"fee_info"`, the resolution scan declares it
under the name `"fee_info"` verbatim; no declaration under the
upper-camel-case form `"FeeInfo"` is emitted, contradicting the claim. -/
theorem c9_counterexample_verbatim_name :
    OutLine.beginDecl "fee_info" "struct" ∈
      (processDoc ⟨some [("address", .str "A")],
        [⟨"init", [⟨"fee", .Defined "fee_info"⟩]⟩],
        [⟨"fee_info", .Struct [⟨"amount", .U64⟩]⟩], []⟩).1 ∧
    toUpperCamelCase "fee_info" = "FeeInfo" ∧
    OutLine.beginDecl (toUpperCamelCase "fee_info") "struct" ∉
      (processDoc ⟨some [("address", .str "A")],
        [⟨"init", [⟨"fee", .Defined "fee_info"⟩]⟩],
        [⟨"fee_info", .Struct [⟨"amount", .U64⟩]⟩], []⟩).1 := by
  refine ⟨by decide, by decide, by decide⟩

lemma fieldLines_fst_forms (fs : List IdlField) (st : List String) :
    ∀ l ∈ (fieldLines fs st).1, ∃ a b, l = OutLine.fieldLine a b := by
  induction fs generalizing st with
  | nil => simp [fieldLines]
  | cons f rest ih =>
      intro l hl
      simp only [fieldLines, List.mem_cons] at hl
      rcases hl with rfl | hl
      · exact ⟨_, _, rfl⟩
      · exact ih _ l hl

/-- C9 amended: an emitted instruction argument struct is declared under
the upper-camel-case form of the instruction name, but a definition
emitted by the resolution scans is declared under the definition's name
verbatim — every `beginDecl` line the scan step emits carries exactly
`td.name`, with no case conversion. -/
theorem c9_amended_declared_names (st : List String) (td : IdlTypeDefinition)
    (ix : IdlInstruction) :
    (td.name ∈ st →
      (scanStep st td).1.head? = some (.beginDecl td.name (kindStr td.ty))) ∧
    (ix.args ≠ [] →
      (ixStep st ix).1.head? =
        some (.beginDecl (toUpperCamelCase ix.name) "struct")) ∧
    (∀ l ∈ (scanStep st td).1, ∀ n k, l = OutLine.beginDecl n k → n = td.name) := by
  refine ⟨?_, ?_, ?_⟩
  · intro h
    unfold scanStep
    rw [if_pos h]
    cases htd : td.ty with
    | Struct fields => simp [kindStr, htd]
    | Enum variants => simp [kindStr, htd]
  · intro h
    unfold ixStep
    rw [if_neg (by simpa using h)]
    rfl
  · intro l hl n k hlk
    subst hlk
    unfold scanStep at hl
    by_cases h : td.name ∈ st
    · rw [if_pos h] at hl
      cases htd : td.ty with
      | Struct fields =>
          rw [htd] at hl
          simp at hl
          rcases hl with ⟨rfl, rfl⟩ | hl
          · rfl
          · obtain ⟨a, b, hab⟩ := fieldLines_fst_forms fields st _ hl
            cases hab
      | Enum variants =>
          rw [htd] at hl
          simp at hl
          exact hl.1
    · rw [if_neg h] at hl
      simp at hl

/-- C9 witness: a snake-cased definition name is declared verbatim by the
scan, while an instruction argument struct gets the upper-camel-case
name. -/
theorem c9_amended_declared_names_witness :
    (scanStep ["fee_info"] ⟨"fee_info", .Struct []⟩).1.head? =
      some (.beginDecl "fee_info" (kindStr (.Struct []))) ∧
    (ixStep [] ⟨"init", [⟨"x", .U8⟩]⟩).1.head? =
      some (.beginDecl (toUpperCamelCase "init") "struct") :=
  ⟨(c9_amended_declared_names ["fee_info"] ⟨"fee_info", .Struct []⟩
      ⟨"init", [⟨"x", .U8⟩]⟩).1 (by decide),
   (c9_amended_declared_names ["fee_info"] ⟨"fee_info", .Struct []⟩
      ⟨"init", [⟨"x", .U8⟩]⟩).2.1 (by decide)⟩

end ParseIdl
